import Mathlib

/-
  Verification development for the `indented_logger` library.

  Shallow embedding of:
  - indented_logger/indent.py       (thread-local indent counter)
  - indented_logger/decorator.py    (log_indent scope guard)
  - indented_logger/formatter.py    (IndentFormatter line renderer)
  - indented_logger/smart_logger.py (recursive structured dumper)

  Python strings are modelled as `List Char`; the thread-local indent level
  (a Python int) is modelled as `Int` with the thread-local cell passed as an
  explicit value.  The heap of Python objects visited by the structured
  dumper is modelled as a map from object identities (`id(obj)`) to object
  contents, so that self-referential structures are expressible.
-/

set_option maxRecDepth 10000

/-! ## indent.py -/

-- indent.py: `get_indent_level` lazily initialises the thread-local level to 0.
def get_indent_level_init : Int := 0

-- indent.py: `increase_indent` sets the level to the current level + 1.
def increase_indent (l : Int) : Int := l + 1

-- indent.py: `decrease_indent` sets the level to max(current - 1, 0).
def decrease_indent (l : Int) : Int := max (l - 1) 0

/-- One call against the thread-local indent counter. -/
inductive IndentOp where
  | inc
  | dec
deriving DecidableEq, Repr

/-- Run a sequence of increase_indent/decrease_indent calls from level `l`. -/
def runOps (ops : List IndentOp) (l : Int) : Int :=
  ops.foldl (fun acc o => match o with
    | IndentOp.inc => increase_indent acc
    | IndentOp.dec => decrease_indent acc) l

/-! ## decorator.py -/

/-
  decorator.py: `log_indent(func)` returns a wrapper running
  `increase_indent(); try: return func(...) finally: decrease_indent()`.
  A wrapped Python callable is modelled as a state-passing function on the
  thread-local level returning either a value (normal return) or a raised
  exception (`Except.error`), together with the level it leaves behind.
-/
def log_indent {E A : Type} (func : Int → Except E A × Int) (d : Int) :
    Except E A × Int :=
  let d1 := increase_indent d
  let r := func d1
  (r.1, decrease_indent r.2)

/-! ## Lemmas about the indent counter -/

theorem runOps_nil (l : Int) : runOps [] l = l := rfl

theorem runOps_cons (o : IndentOp) (ops : List IndentOp) (l : Int) :
    runOps (o :: ops) l =
      runOps ops (match o with
        | IndentOp.inc => increase_indent l
        | IndentOp.dec => decrease_indent l) := rfl

theorem runOps_nonneg (ops : List IndentOp) :
    ∀ l : Int, 0 ≤ l → 0 ≤ runOps ops l := by
  induction ops with
  | nil => intro l hl; simpa [runOps] using hl
  | cons o rest ih =>
    intro l hl
    cases o with
    | inc =>
      rw [runOps_cons]
      exact ih _ (by simp only [increase_indent]; omega)
    | dec =>
      rw [runOps_cons]
      exact ih _ (by simp only [decrease_indent]; omega)

/-- Core balance lemma: if the running balance of decrements against
increments (relative to the starting level `s`) never goes negative on any
prefix, the final level is exactly `s + increments - decrements`. -/
theorem runOps_eq_of_balanced (ops : List IndentOp) :
    ∀ s : Int, 0 ≤ s →
    (∀ n : Nat, ((ops.take n).count IndentOp.dec : Int) ≤
        s + ((ops.take n).count IndentOp.inc : Int)) →
    runOps ops s = s + (ops.count IndentOp.inc : Int) -
        (ops.count IndentOp.dec : Int) := by
  induction ops with
  | nil => intro s hs _; simp [runOps]
  | cons o rest ih =>
    intro s hs hbal
    cases o with
    | inc =>
      rw [runOps_cons]
      have h' : ∀ n : Nat, ((rest.take n).count IndentOp.dec : Int) ≤
          increase_indent s + ((rest.take n).count IndentOp.inc : Int) := by
        intro n
        have := hbal (n + 1)
        simp [List.take_succ_cons, List.count_cons] at this
        simp only [increase_indent]
        omega
      have := ih (increase_indent s) (by simp only [increase_indent]; omega) h'
      rw [this]
      simp [increase_indent, List.count_cons]
      omega
    | dec =>
      have hpos : (1 : Int) ≤ s := by
        have := hbal 1
        simp [List.take_succ_cons, List.count_cons] at this
        omega
      rw [runOps_cons]
      have hdec : decrease_indent s = s - 1 := by
        simp only [decrease_indent]; omega
      have h' : ∀ n : Nat, ((rest.take n).count IndentOp.dec : Int) ≤
          (s - 1) + ((rest.take n).count IndentOp.inc : Int) := by
        intro n
        have := hbal (n + 1)
        simp [List.take_succ_cons, List.count_cons] at this
        omega
      have := ih (s - 1) (by omega) h'
      rw [hdec, this]
      simp [List.count_cons]
      omega

/-! ## Claims C3 and C4 -/

/-- C3: for every finite sequence of increase_indent/decrease_indent calls on
one execution unit whose running balance of increments minus decrements never
goes negative, the indent level after any prefix equals
max(0, increments - decrements) over that prefix and is never negative;
moreover decrease_indent at level 0 leaves the level at 0. -/
theorem claim_C3_indent_balance (ops : List IndentOp)
    (hbal : ∀ n : Nat, ((ops.take n).count IndentOp.dec : Int) ≤
        ((ops.take n).count IndentOp.inc : Int)) :
    (∀ n : Nat,
      runOps (ops.take n) get_indent_level_init =
        max 0 (((ops.take n).count IndentOp.inc : Int) -
          ((ops.take n).count IndentOp.dec : Int)) ∧
      0 ≤ runOps (ops.take n) get_indent_level_init) ∧
    decrease_indent 0 = 0 := by
  refine ⟨fun n => ?_, by simp [decrease_indent]⟩
  have hsub : ∀ m : Nat, (ops.take n).take m = ops.take (min m n) := by
    intro m; rw [List.take_take]
  have hb : ∀ m : Nat, (((ops.take n).take m).count IndentOp.dec : Int) ≤
      (0 : Int) + (((ops.take n).take m).count IndentOp.inc : Int) := by
    intro m
    rw [hsub m]
    have := hbal (min m n)
    omega
  have heq := runOps_eq_of_balanced (ops.take n) 0 le_rfl hb
  have hn := hbal n
  have : (ops.take n).take n = ops.take n := by
    rw [List.take_take]; simp
  constructor
  · rw [show get_indent_level_init = (0 : Int) from rfl, heq]
    omega
  · exact runOps_nonneg _ _ le_rfl

/-- C3 witness: concrete run of [inc, inc, dec] discharging the balance
hypothesis. -/
theorem claim_C3_indent_balance_witness :
    (∀ n : Nat, ((([IndentOp.inc, IndentOp.inc, IndentOp.dec].take n).count
        IndentOp.dec : Int) ≤
      (([IndentOp.inc, IndentOp.inc, IndentOp.dec].take n).count
        IndentOp.inc : Int))) ∧
    runOps ([IndentOp.inc, IndentOp.inc, IndentOp.dec].take 3)
        get_indent_level_init =
      max 0 ((([IndentOp.inc, IndentOp.inc, IndentOp.dec].take 3).count
          IndentOp.inc : Int) -
        (([IndentOp.inc, IndentOp.inc, IndentOp.dec].take 3).count
          IndentOp.dec : Int)) := by
  have hbal : ∀ n : Nat, ((([IndentOp.inc, IndentOp.inc, IndentOp.dec].take
      n).count IndentOp.dec : Int) ≤
      (([IndentOp.inc, IndentOp.inc, IndentOp.dec].take n).count
        IndentOp.inc : Int)) := by
    intro n
    match n with
    | 0 => decide
    | 1 => decide
    | 2 => decide
    | (m + 3) =>
      have : [IndentOp.inc, IndentOp.inc, IndentOp.dec].take (m + 3) =
          [IndentOp.inc, IndentOp.inc, IndentOp.dec] := by
        simp [List.take_succ_cons]
      rw [this]; decide
  exact ⟨hbal, ((claim_C3_indent_balance _ hbal).1 3).1⟩

/-- C4: the log_indent scope guard calls increase_indent before the wrapped
function and decrease_indent on every exit path; the return value or raised
exception passes through unchanged, and when the wrapped body leaves the
counter balanced the depth after the wrapper equals the depth before. -/
theorem claim_C4_scope_guard {E A : Type} (func : Int → Except E A × Int)
    (d : Int) :
    (log_indent func d).1 = (func (increase_indent d)).1 ∧
    (∀ e : E, (func (increase_indent d)).1 = Except.error e →
      (log_indent func d).1 = Except.error e) ∧
    (0 ≤ d → (func (increase_indent d)).2 = increase_indent d →
      (log_indent func d).2 = d) := by
  refine ⟨rfl, fun e he => ?_, fun hd hbal => ?_⟩
  · simp only [log_indent]
    exact he
  · have hbal' : (func (d + 1)).2 = d + 1 := by
      simpa [increase_indent] using hbal
    simp only [log_indent, increase_indent, decrease_indent, hbal']
    omega

/-- C4 witness: concrete balanced body returning a value at depth 3. -/
theorem claim_C4_scope_guard_witness :
    (0 : Int) ≤ 3 ∧
    ((fun l => (Except.ok 7, l) : Int → Except String Nat × Int)
        (increase_indent 3)).2 = increase_indent 3 ∧
    (log_indent (fun l => (Except.ok 7, l) : Int → Except String Nat × Int)
        3).2 = 3 := by
  refine ⟨by norm_num, rfl, ?_⟩
  exact (claim_C4_scope_guard (fun l => (Except.ok 7, l)) 3).2.2
    (by norm_num) rfl

/-! ## Character/string groundwork for formatter.py

Python strings are `List Char`. -/

/-- The ASCII escape character, `'\033'` in the Python source. -/
def escChar : Char := '\x1b'

/-- Coerce a Lean string literal to the `List Char` representation. -/
def strL (s : String) : List Char := s.toList

/-- A string contains no ANSI escape sequence at all (in particular, no
escape character). -/
def noEsc (l : List Char) : Prop := escChar ∉ l

instance (l : List Char) : Decidable (noEsc l) := by
  unfold noEsc; infer_instance

/-- Split a leading run of decimal digits (the `\d+` of the Python regex
`\033\[\d+m`) from the rest of the string. -/
def splitDigits : List Char → List Char × List Char
  | [] => ([], [])
  | c :: rest =>
    if c.isDigit then
      let p := splitDigits rest
      (c :: p.1, p.2)
    else ([], c :: rest)

/-- Given the characters following an escape character, return the remainder
of the string after a full `\[\d+m` match, or `none` when the regex does not
match at this position. -/
def matchCode : List Char → Option (List Char)
  | '[' :: r2 =>
    match splitDigits r2 with
    | ([], _) => none
    | (_ :: _, 'm' :: r4) => some r4
    | (_ :: _, _) => none
  | _ => none

/-- Fuel-indexed worker for `strip_color_codes`: removes every occurrence of
the regex `\033\[\d+m`, scanning left to right as `re.sub` does.  With fuel at
least the length of the input the fuel never runs out. -/
def stripAux : Nat → List Char → List Char
  | _, [] => []
  | 0, l => l
  | f + 1, c :: rest =>
    if c = escChar then
      match matchCode rest with
      | some r4 => stripAux f r4
      | none => c :: stripAux f rest
    else c :: stripAux f rest

-- formatter.py: `strip_color_codes(text)` = re.sub(r'\033\[\d+m', '', text).
def strip_color_codes (l : List Char) : List Char := stripAux l.length l

/-- An ANSI color sequence with digit payload `ds`: `\033[` ++ ds ++ `m`. -/
def colorSeq (ds : List Char) : List Char := escChar :: '[' :: (ds ++ ['m'])

theorem splitDigits_append_eq (l : List Char) :
    (splitDigits l).1 ++ (splitDigits l).2 = l := by
  induction l with
  | nil => rfl
  | cons c rest ih =>
    by_cases h : c.isDigit <;> simp [splitDigits, h, ih]

theorem splitDigits_of_digits (ds rest : List Char)
    (hds : ∀ c ∈ ds, c.isDigit) (hr : ∀ h : rest ≠ [],
      ¬ (rest.head h).isDigit) :
    splitDigits (ds ++ rest) = (ds, rest) := by
  induction ds with
  | nil =>
    cases rest with
    | nil => rfl
    | cons c r =>
      have : ¬ c.isDigit := hr (by simp)
      simp [splitDigits, this]
  | cons c ds' ih =>
    have hc : c.isDigit := hds c (by simp)
    have := ih (fun x hx => hds x (by simp [hx]))
    simp [splitDigits, hc, this]

/-- A successful regex match after an escape character consumes at least
three characters (the bracket, at least one digit, and the `m`). -/
theorem matchCode_length {rest r4 : List Char} (h : matchCode rest = some r4) :
    r4.length + 3 ≤ rest.length := by
  unfold matchCode at h
  split at h
  next r2 =>
    split at h
    next => exact absurd h (by simp)
    next d ds r4' hsd =>
      have happ := splitDigits_append_eq r2
      rw [hsd] at happ
      have hr4 : r4' = r4 := by simpa using h
      have hlen1 : r2.length = ds.length + 1 + (r4'.length + 1) := by
        rw [← happ]; simp; omega
      have hlen2 : r4'.length = r4.length := by rw [hr4]
      simp
      omega
    next => exact absurd h (by simp)
  next => exact absurd h (by simp)

/-- Fuel irrelevance: any fuel at least the input length gives the same
result. -/
theorem stripAux_fuel_eq : ∀ (f g : Nat) (l : List Char),
    l.length ≤ f → l.length ≤ g → stripAux f l = stripAux g l := by
  intro f
  induction f with
  | zero =>
    intro g l hf _
    have : l = [] := by
      cases l with
      | nil => rfl
      | cons c r => simp at hf
    subst this
    cases g <;> rfl
  | succ f ih =>
    intro g l hf hg
    cases l with
    | nil => cases g <;> rfl
    | cons c rest =>
      cases g with
      | zero => simp at hg
      | succ g =>
        have hrf : rest.length ≤ f := by simpa using hf
        have hrg : rest.length ≤ g := by simpa using hg
        by_cases hc : c = escChar
        · simp only [stripAux, hc, if_true]
          cases hm : matchCode rest with
          | some r4 =>
            have hlen := matchCode_length hm
            exact ih g r4 (by omega) (by omega)
          | none =>
            rw [ih g rest hrf hrg]
        · simp only [stripAux, hc, if_false]
          rw [ih g rest hrf hrg]

/-- Stripping is the identity on escape-free strings. -/
theorem stripAux_of_noEsc : ∀ (f : Nat) (l : List Char),
    l.length ≤ f → noEsc l → stripAux f l = l := by
  intro f
  induction f with
  | zero =>
    intro l hf _
    cases l with
    | nil => rfl
    | cons c r => simp at hf
  | succ f ih =>
    intro l hf hl
    cases l with
    | nil => rfl
    | cons c rest =>
      have hc : ¬ c = escChar := by
        intro h
        exact hl (by simp [h])
      have hrest : noEsc rest := by
        intro h
        exact hl (by simp [h])
      simp only [stripAux, hc, if_false]
      rw [ih rest (by simpa using hf) hrest]

theorem strip_color_codes_of_noEsc {l : List Char} (h : noEsc l) :
    strip_color_codes l = l :=
  stripAux_of_noEsc l.length l le_rfl h

/-- Stripping removes a leading well-formed color sequence. -/
theorem strip_color_codes_colorSeq_append (ds l : List Char)
    (hne : ds ≠ []) (hd : ∀ c ∈ ds, c.isDigit) :
    strip_color_codes (colorSeq ds ++ l) = strip_color_codes l := by
  have hsd : splitDigits (ds ++ 'm' :: l) = (ds, 'm' :: l) := by
    apply splitDigits_of_digits ds ('m' :: l) hd
    intro _
    simp
  have hcons : colorSeq ds ++ l = escChar :: '[' :: (ds ++ 'm' :: l) := by
    simp [colorSeq]
  have hmc : matchCode ('[' :: (ds ++ 'm' :: l)) = some l := by
    cases ds with
    | nil => exact absurd rfl hne
    | cons d ds' =>
      have hstep : matchCode ('[' :: ((d :: ds') ++ 'm' :: l)) =
          match splitDigits ((d :: ds') ++ 'm' :: l) with
          | ([], _) => none
          | (_ :: _, 'm' :: r4) => some r4
          | (_ :: _, _) => none := rfl
      rw [hstep, hsd]
      rfl
  rw [strip_color_codes, hcons]
  have hlen : (escChar :: '[' :: (ds ++ 'm' :: l)).length =
      ds.length + l.length + 3 := by simp; omega
  rw [hlen]
  show stripAux (ds.length + l.length + 2 + 1)
    (escChar :: '[' :: (ds ++ 'm' :: l)) = strip_color_codes l
  simp only [stripAux, if_pos rfl, hmc]
  rw [strip_color_codes]
  exact stripAux_fuel_eq _ _ l (by omega) le_rfl

/-- Stripping distributes over an escape-free left part. -/
theorem strip_color_codes_append_of_noEsc : ∀ (a l : List Char), noEsc a →
    strip_color_codes (a ++ l) = a ++ strip_color_codes l := by
  intro a
  induction a with
  | nil => intro l _; simp
  | cons c a' ih =>
    intro l ha
    have hc : ¬ c = escChar := by
      intro h; exact ha (by simp [h])
    have ha' : noEsc a' := by
      intro h; exact ha (by simp [h])
    rw [strip_color_codes]
    have hlen : ((c :: a') ++ l).length = (a' ++ l).length + 1 := by simp
    rw [hlen]
    have hstep : stripAux ((a' ++ l).length + 1) ((c :: a') ++ l) =
        c :: stripAux (a' ++ l).length (a' ++ l) := by
      show stripAux ((a' ++ l).length + 1) (c :: (a' ++ l)) = _
      simp only [stripAux, hc, if_false]
    rw [hstep,
      show stripAux (a' ++ l).length (a' ++ l) = strip_color_codes (a' ++ l)
        from rfl,
      ih l ha']
    rfl

/-! ## noEsc helper lemmas -/

theorem noEsc_append {a b : List Char} :
    noEsc (a ++ b) ↔ noEsc a ∧ noEsc b := by
  simp [noEsc, List.mem_append, not_or]

theorem noEsc_nil : noEsc [] := by simp [noEsc]

theorem noEsc_replicate_space (n : Nat) : noEsc (List.replicate n ' ') := by
  simp [noEsc, List.mem_replicate]
  intro _
  decide

theorem noEsc_take {l : List Char} (n : Nat) (h : noEsc l) :
    noEsc (l.take n) := fun hm => h (List.mem_of_mem_take hm)

theorem noEsc_cons {c : Char} {l : List Char} (hc : c ≠ escChar)
    (hl : noEsc l) : noEsc (c :: l) := by
  intro h
  rcases List.mem_cons.mp h with h | h
  · exact hc h.symm
  · exact hl h

/-! ## formatter.py -/

/-- Opening brace character (written by code point to keep braces out of
string literals). -/
def lbrace : Char := Char.ofNat 123

/-- Closing brace character. -/
def rbrace : Char := Char.ofNat 125

/-- The parsed form of a Python `str.format` template: literal runs and
replacement fields.  `formatter.py` feeds templates to
`str.format(funcName=..., moduleName=...)`, so a field is substitutable
exactly when its name is `funcName` or `moduleName`. -/
inductive Seg where
  | lit (s : List Char)
  | field (name : List Char)
deriving DecidableEq, Repr

/-- A logging record as consumed by `IndentFormatter`: `getMessage()` result,
level name, logger name (`record.name`), function name, and the two
`extra`-supplied attributes `lvl` (manual indent hint, default 0) and `c`
(color tag, default "reset"). -/
structure LogRecord where
  msg : List Char
  levelname : List Char
  name : List Char
  funcName : List Char
  lvl : Nat
  c : List Char
deriving DecidableEq, Repr

/-- formatter.py: `build_func_module_format`.  `None` builds the default
template from the include flags, joining `{moduleName}` and `{funcName}`
with `:`; an explicit template is returned unchanged (no validation). -/
def build_func_module_format (includeFunc includeModule : Bool)
    (fmt : Option (List Seg)) : List Seg :=
  match fmt with
  | some t => t
  | none =>
    List.intercalate [Seg.lit (strL ":")]
      ((if includeModule then [[Seg.field (strL "moduleName")]] else []) ++
       (if includeFunc then [[Seg.field (strL "funcName")]] else []))

/-- The state of an `IndentFormatter` after `__init__` (the `datefmt` and
`debug` arguments do not affect the rendering logic modelled here). -/
structure IndentFormatter where
  include_func : Bool
  include_module : Bool
  truncate_messages : Bool
  min_func_name_col : Nat
  indent_modules : Bool
  indent_packages : Bool
  indent_spaces : Nat
  disable_colors : Bool
  disable_indent : Bool
  no_datetime : Bool
  func_module_format : List Seg
deriving Repr

/-- formatter.py: `IndentFormatter.__init__`, resolving the raw constructor
arguments into formatter state. -/
def mkIndentFormatter (include_func include_module : Bool)
    (func_module_format : Option (List Seg))
    (truncate_messages : Bool) (min_func_name_col : Nat)
    (indent_modules indent_packages : Bool) (indent_spaces : Nat)
    (disable_colors disable_indent no_datetime : Bool) : IndentFormatter :=
  { include_func := include_func
    include_module := include_module
    truncate_messages := truncate_messages
    min_func_name_col := min_func_name_col
    indent_modules := indent_modules && !disable_indent
    indent_packages := indent_packages && !disable_indent
    indent_spaces := if disable_indent then 0 else indent_spaces
    disable_colors := disable_colors
    disable_indent := disable_indent
    no_datetime := no_datetime
    func_module_format :=
      build_func_module_format include_func include_module func_module_format }

/-- formatter.py: `COLOR_MAP.get(name, COLOR_MAP['reset'])`. -/
def COLOR_MAP_get (name : List Char) : List Char :=
  if name = strL "red" then colorSeq (strL "31")
  else if name = strL "green" then colorSeq (strL "32")
  else if name = strL "yellow" then colorSeq (strL "33")
  else if name = strL "blue" then colorSeq (strL "34")
  else if name = strL "magenta" then colorSeq (strL "35")
  else if name = strL "cyan" then colorSeq (strL "36")
  else if name = strL "reset" then colorSeq (strL "0")
  else colorSeq (strL "0")

/-- Python `str.lower()` restricted to the ASCII color names in play. -/
def lowerChars (l : List Char) : List Char := l.map Char.toLower

/-- formatter.py: `IndentFormatter.get_indent`.  The thread-local
`get_indent_level()` reading is passed explicitly as `threadIndent`. -/
def get_indent (f : IndentFormatter) (threadIndent : Nat)
    (record : LogRecord) : List Char :=
  if f.disable_indent then []
  else
    let manual_indent := record.lvl
    let hierarchy_indent :=
      (if f.indent_modules ∧ record.name ≠ strL "__main__" then 1 else 0) +
      (if f.indent_packages then record.name.count '.' else 0)
    let total_indent := threadIndent + manual_indent + hierarchy_indent
    List.replicate (total_indent * f.indent_spaces) ' '

/-- formatter.py: `IndentFormatter.apply_colors`. -/
def apply_colors (f : IndentFormatter) (text : List Char)
    (color_name : List Char) : List Char :=
  if f.disable_colors then text
  else COLOR_MAP_get (lowerChars color_name) ++ text ++ colorSeq (strL "0")

/-- formatter.py: `IndentFormatter.get_colored_message`.  The truncation
threshold is the fixed `max_message_length = 50`; truncation keeps the first
47 raw characters of `indent + record.getMessage()` and appends `'...'`. -/
def get_colored_message (f : IndentFormatter) (record : LogRecord)
    (indent : List Char) : List Char :=
  let color_name := lowerChars record.c
  let message := indent ++ record.msg
  let message :=
    if f.truncate_messages ∧ message.length > 50 then
      message.take 47 ++ strL "..."
    else message
  if f.disable_colors then message
  else apply_colors f message color_name

/-- Python `template.format(funcName=..., moduleName=...)`: substitute the
two known fields, raise `KeyError` (modelled as `Except.error`) on any other
field name. -/
def formatSegs (segs : List Seg) (funcName moduleName : List Char) :
    Except (List Char) (List Char) :=
  match segs with
  | [] => Except.ok []
  | Seg.lit s :: rest =>
    (formatSegs rest funcName moduleName).map (fun r => s ++ r)
  | Seg.field n :: rest =>
    if n = strL "funcName" then
      (formatSegs rest funcName moduleName).map (fun r => funcName ++ r)
    else if n = strL "moduleName" then
      (formatSegs rest funcName moduleName).map (fun r => moduleName ++ r)
    else Except.error n

/-- formatter.py: `IndentFormatter.get_func_module_info`.  An empty template
is falsy, so nothing is formatted. -/
def get_func_module_info (f : IndentFormatter) (record : LogRecord) :
    Except (List Char) (List Char) :=
  if f.func_module_format = [] then Except.ok []
  else formatSegs f.func_module_format record.funcName record.name

/-- formatter.py: `IndentFormatter.apply_padding`.  Natural-number
subtraction models Python's `max(0, desired_column - current_length)`. -/
def apply_padding (f : IndentFormatter) (asctime levelname message
    func_module_info : List Char) : List Char :=
  let asctime_text := if f.no_datetime then [] else asctime
  let stripped_message :=
    if ¬ f.disable_colors then strip_color_codes message else message
  let current_length := asctime_text.length +
    (if asctime_text ≠ [] then 3 else 0) + levelname.length + 3 +
    stripped_message.length
  if func_module_info ≠ [] then
    List.replicate (f.min_func_name_col - current_length) ' '
  else []

/-- Python `f"{levelname:<8}"`: left-justify to width 8, never truncating. -/
def ljust8 (s : List Char) : List Char :=
  s ++ List.replicate (8 - s.length) ' '

/-- Split a string at the first occurrence of `sep`, returning the parts
before and after it (Python `str.split(sep, 1)` shape). -/
def splitOnce (sep : List Char) : List Char → Option (List Char × List Char)
  | [] => if sep = [] then some ([], []) else none
  | c :: rest =>
    if sep.isPrefixOf (c :: rest) then some ([], (c :: rest).drop sep.length)
    else
      match splitOnce sep rest with
      | none => none
      | some (a, b) => some (c :: a, b)

/-- Python `s.split(sep, 2)`: at most three parts. -/
def pySplit2 (sep s : List Char) : List (List Char) :=
  match splitOnce sep s with
  | none => [s]
  | some (a, r) =>
    match splitOnce sep r with
    | none => [a, r]
    | some (b, r2) => [a, b, r2]

/-- Python `s.replace(old, new, 1)`. -/
def replaceFirst (s old new : List Char) : List Char :=
  match splitOnce old s with
  | none => s
  | some (a, b) => a ++ new ++ b

/-- The separator written between fields by the format string
`'%(asctime)s - %(levelname)-8s - %(message)s'`. -/
def sepDash : List Char := strL " - "

/-- formatter.py: `IndentFormatter.format`.  `asctime` is the result of
`formatTime(record, datefmt)` (external to the core and passed as an
argument); the base logging.Formatter always substitutes it since the
format string contains `%(asctime)s` (so `usesTime()` is true), and the
`no_datetime` post-processing then removes it by splitting on `' - '`. -/
def format (f : IndentFormatter) (record : LogRecord) (threadIndent : Nat)
    (asctime : List Char) : Except (List Char) (List Char) :=
  let indent := get_indent f threadIndent record
  let message := get_colored_message f record indent
  let asctimeLocal := if f.no_datetime then [] else asctime
  let asctime_colored :=
    if ¬ f.disable_colors ∧ ¬ f.no_datetime then
      apply_colors f asctimeLocal (strL "cyan")
    else asctimeLocal
  let levelname := ljust8 record.levelname
  match get_func_module_info f record with
  | Except.error e => Except.error e
  | Except.ok func_module_info =>
    let padding := apply_padding f asctimeLocal levelname message
      func_module_info
    let suffix :=
      if f.func_module_format ≠ [] then
        padding ++ [lbrace] ++ func_module_info ++ [rbrace]
      else []
    let formatted := asctime ++ sepDash ++ levelname ++ sepDash ++ message ++
      suffix
    if f.no_datetime then
      match pySplit2 sepDash formatted with
      | [_, p1, p2] => Except.ok (p1 ++ sepDash ++ p2)
      | [_, p1] => Except.ok p1
      | _ => Except.ok formatted
    else
      if ¬ f.disable_colors then
        Except.ok (replaceFirst formatted asctime asctime_colored)
      else Except.ok formatted

/-! ## Claim C5: indentation width -/

/-- C5: for every record and context depth, the indentation string equals
`spaces_per_level * total` spaces with
`total = context_depth + manual_hint + hierarchy_term`, the hierarchy term
being +1 when indent-by-module is enabled and the record's source name
differs from `__main__`, plus the number of dots in the source name when
indent-by-package is enabled; with indentation globally disabled the
indentation string is empty regardless of every other term. -/
theorem claim_C5_indent_width (include_func include_module : Bool)
    (fmt : Option (List Seg)) (truncate_messages : Bool)
    (min_func_name_col : Nat) (indent_modules indent_packages : Bool)
    (indent_spaces : Nat) (disable_colors disable_indent no_datetime : Bool)
    (record : LogRecord) (d : Nat) :
    (disable_indent = true →
      get_indent (mkIndentFormatter include_func include_module fmt
        truncate_messages min_func_name_col indent_modules indent_packages
        indent_spaces disable_colors disable_indent no_datetime) d record
        = []) ∧
    (disable_indent = false →
      get_indent (mkIndentFormatter include_func include_module fmt
        truncate_messages min_func_name_col indent_modules indent_packages
        indent_spaces disable_colors disable_indent no_datetime) d record
        = List.replicate
            ((d + record.lvl +
              ((if indent_modules ∧ record.name ≠ strL "__main__" then 1
                  else 0) +
               (if indent_packages then record.name.count '.' else 0))) *
             indent_spaces) ' ') := by
  constructor
  · intro h
    subst h
    simp [get_indent, mkIndentFormatter]
  · intro h
    subst h
    simp [get_indent, mkIndentFormatter]

/-- C5 witness: a concrete configuration with hierarchy indentation
enabled. -/
theorem claim_C5_indent_width_witness :
    get_indent (mkIndentFormatter false false none false 120 true true 4
        false false false) 2
        ⟨strL "hello", strL "INFO", strL "a.b.c", strL "fn", 1, strL "reset"⟩
      = List.replicate ((2 + 1 + (1 + 2)) * 4) ' ' := by
  have h := (claim_C5_indent_width false false none false 120 true true 4
    false false false
    ⟨strL "hello", strL "INFO", strL "a.b.c", strL "fn", 1, strL "reset"⟩
    2).2 rfl
  rw [h]
  decide

/-! ## Claim C2: malformed format templates -/

/-- A template referencing a field other than funcName/moduleName. -/
def badTemplate : List Seg := [Seg.field (strL "bogus")]

/-- A formatter configured with the malformed template. -/
def fBad : IndentFormatter :=
  mkIndentFormatter true true (some badTemplate) false 120 false false 4
    false false false

/-- A throwaway concrete record. -/
def recPlain : LogRecord :=
  ⟨strL "hello", strL "INFO", strL "mod", strL "fn", 0, strL "reset"⟩

/-- C2 counterexample: the malformed template `{bogus}` is accepted unchanged
at configuration time (construction performs no validation and raises
nothing), and rendering the annotation then fails with the unknown-field
error — contradicting "raises an error at configuration time, and no error
is raised at render time". -/
theorem claim_C2_counterexample :
    build_func_module_format true true (some badTemplate) = badTemplate ∧
    fBad.func_module_format = badTemplate ∧
    get_func_module_info fBad recPlain = Except.error (strL "bogus") := by
  refine ⟨rfl, rfl, ?_⟩
  rfl

/-- Templates whose fields are all substitutable never fail to format. -/
theorem formatSegs_ok_of_wf (segs : List Seg) (funcName moduleName : List Char)
    (hwf : ∀ n, Seg.field n ∈ segs →
      n = strL "funcName" ∨ n = strL "moduleName") :
    ∃ out, formatSegs segs funcName moduleName = Except.ok out := by
  induction segs with
  | nil => exact ⟨[], rfl⟩
  | cons seg rest ih =>
    have hrest : ∀ n, Seg.field n ∈ rest →
        n = strL "funcName" ∨ n = strL "moduleName" := by
      intro n hn
      exact hwf n (List.mem_cons_of_mem _ hn)
    obtain ⟨out, hout⟩ := ih hrest
    cases seg with
    | lit s =>
      exact ⟨s ++ out, by simp [formatSegs, hout, Except.map]⟩
    | field n =>
      by_cases hfn : n = strL "funcName"
      · exact ⟨funcName ++ out, by simp [formatSegs, hfn, hout, Except.map]⟩
      · rcases hwf n (List.mem_cons_self _ _) with h | h
        · exact absurd h hfn
        · refine ⟨moduleName ++ out, ?_⟩
          subst h
          simp only [formatSegs]
          rw [if_neg (by decide)]
          simp [hout, Except.map]

/-- C2 amended: a malformed template (unknown field name) passes
configuration unchanged — no validation and no error happens at
construction — and the failure instead occurs at render time on every
record; templates referencing only the two substitutable fields render
without error for every record. -/
theorem claim_C2_template_errors :
    (∀ (includeFunc includeModule : Bool) (t : List Seg),
      build_func_module_format includeFunc includeModule (some t) = t) ∧
    (∀ record : LogRecord,
      get_func_module_info fBad record = Except.error (strL "bogus")) ∧
    (∀ (f : IndentFormatter) (record : LogRecord),
      (∀ n, Seg.field n ∈ f.func_module_format →
        n = strL "funcName" ∨ n = strL "moduleName") →
      ∃ out, get_func_module_info f record = Except.ok out) := by
  refine ⟨fun _ _ _ => rfl, fun record => ?_, fun f record hwf => ?_⟩
  · show get_func_module_info fBad record = Except.error (strL "bogus")
    unfold get_func_module_info
    have : fBad.func_module_format = badTemplate := rfl
    rw [this]
    simp only [badTemplate]
    rw [if_neg (by decide)]
    unfold formatSegs
    rw [if_neg (by decide), if_neg (by decide)]
  · unfold get_func_module_info
    by_cases hempty : f.func_module_format = []
    · exact ⟨[], by simp [hempty]⟩
    · obtain ⟨out, hout⟩ :=
        formatSegs_ok_of_wf f.func_module_format record.funcName record.name
          hwf
      exact ⟨out, by simp [hempty, hout]⟩

/-- C2 amended witness: the default module:func template formats without
error on a concrete record. -/
theorem claim_C2_template_errors_witness :
    (∀ n, Seg.field n ∈ (mkIndentFormatter true true none false 120 false
        false 4 false false false).func_module_format →
      n = strL "funcName" ∨ n = strL "moduleName") ∧
    ∃ out, get_func_module_info (mkIndentFormatter true true none false 120
        false false 4 false false false) recPlain = Except.ok out := by
  have hwf : ∀ n, Seg.field n ∈ (mkIndentFormatter true true none false 120
      false false 4 false false false).func_module_format →
      n = strL "funcName" ∨ n = strL "moduleName" := by
    intro n hn
    have : (mkIndentFormatter true true none false 120 false false 4 false
        false false).func_module_format =
        [Seg.field (strL "moduleName"), Seg.lit (strL ":"),
         Seg.field (strL "funcName")] := by decide
    rw [this] at hn
    simp at hn
    tauto
  exact ⟨hwf, claim_C2_template_errors.2.2 _ recPlain hwf⟩

/-! ## Claim C6: truncation and visible length -/

/-- Every color the map can return is a well-formed ANSI sequence with a
nonempty digit payload. -/
theorem COLOR_MAP_get_good (name : List Char) :
    ∃ ds, COLOR_MAP_get name = colorSeq ds ∧ ds ≠ [] ∧
      ∀ c ∈ ds, c.isDigit := by
  unfold COLOR_MAP_get
  split_ifs <;> exact ⟨_, rfl, by decide, by decide⟩

/-- Stripping color codes undoes `apply_colors` on an escape-free payload,
whether or not colors are enabled. -/
theorem strip_apply_colors (f : IndentFormatter) (m name : List Char)
    (hm : noEsc m) : strip_color_codes (apply_colors f m name) = m := by
  unfold apply_colors
  split
  · exact strip_color_codes_of_noEsc hm
  · obtain ⟨ds, hds, hne, hdig⟩ := COLOR_MAP_get_good (lowerChars name)
    rw [hds, List.append_assoc,
      strip_color_codes_colorSeq_append ds _ hne hdig,
      strip_color_codes_append_of_noEsc m _ hm,
      show colorSeq (strL "0") = colorSeq (strL "0") ++ [] by simp,
      strip_color_codes_colorSeq_append (strL "0") [] (by decide) (by decide)]
    simp [strip_color_codes, stripAux]

/-- Stripping undoes the whole of `get_colored_message` when the indented
raw message is escape-free. -/
theorem strip_get_colored_message (f : IndentFormatter) (record : LogRecord)
    (indent : List Char) (hne : noEsc (indent ++ record.msg)) :
    strip_color_codes (get_colored_message f record indent) =
      (if f.truncate_messages ∧ (indent ++ record.msg).length > 50 then
        (indent ++ record.msg).take 47 ++ strL "..."
      else indent ++ record.msg) := by
  have hne' : noEsc (if f.truncate_messages ∧
      (indent ++ record.msg).length > 50 then
      (indent ++ record.msg).take 47 ++ strL "..."
    else indent ++ record.msg) := by
    split
    · exact (noEsc_append).mpr ⟨noEsc_take 47 hne, by decide⟩
    · exact hne
  unfold get_colored_message
  split
  · exact strip_color_codes_of_noEsc hne'
  · exact strip_apply_colors f _ _ hne'

/-- A message made of eleven red color sequences and one visible char:
raw length 56, visible length 1. -/
def escMsg : List Char :=
  (List.replicate 11 (colorSeq (strL "31"))).flatten ++ ['x']

/-- Formatter for the C6 counterexample: truncation on, colors and
indentation off. -/
def f6 : IndentFormatter :=
  mkIndentFormatter false false none true 120 false false 4 true true false

/-- Record carrying the escape-laden message. -/
def r6 : LogRecord := ⟨escMsg, strL "INFO", strL "mod", strL "fn", 0, strL "reset"⟩

/-- C6 counterexample: a record whose indented message has visible
(color-code-stripped) length 1 ≤ 50 is nevertheless changed by rendering
with truncation enabled, because the code truncates on the raw length
(56 > 50) — contradicting "messages of visible length at most 50 are left
unchanged" and the assertion that measurement is of visible length. -/
theorem claim_C6_counterexample :
    (strip_color_codes (get_indent f6 0 r6 ++ r6.msg)).length ≤ 50 ∧
    get_colored_message f6 r6 (get_indent f6 0 r6) ≠
      get_indent f6 0 r6 ++ r6.msg := by
  constructor
  · decide
  · decide

/-- C6 amended: truncation measures the raw length of indent + message
before colorization (for an escape-free message this is the visible
length): when that length exceeds 50 the rendered message has visible
length exactly 50, consisting of the first 47 characters plus a 3-character
ellipsis, whether or not color is applied; when it is at most 50 the
message is unchanged up to color wrapping. -/
theorem claim_C6_truncation (f : IndentFormatter) (record : LogRecord)
    (indent : List Char) (htr : f.truncate_messages = true)
    (hne : noEsc (indent ++ record.msg)) :
    (50 < (indent ++ record.msg).length →
      strip_color_codes (get_colored_message f record indent) =
        (indent ++ record.msg).take 47 ++ strL "..." ∧
      (strip_color_codes (get_colored_message f record indent)).length
        = 50) ∧
    ((indent ++ record.msg).length ≤ 50 →
      strip_color_codes (get_colored_message f record indent) =
        indent ++ record.msg) := by
  have hkey := strip_get_colored_message f record indent hne
  constructor
  · intro hlen
    have hcond : (f.truncate_messages ∧ (indent ++ record.msg).length > 50)
        := ⟨htr, hlen⟩
    rw [hkey, if_pos hcond]
    refine ⟨rfl, ?_⟩
    have h47 : ((indent ++ record.msg).take 47).length = 47 := by
      rw [List.length_take]
      omega
    simp [h47]
    decide
  · intro hlen
    have hcond : ¬ (f.truncate_messages ∧
        (indent ++ record.msg).length > 50) := by
      intro ⟨_, h⟩
      omega
    rw [hkey, if_neg hcond]

/-- C6 amended witness: a 60-character escape-free message truncates to
visible length 50 even with colors enabled. -/
theorem claim_C6_truncation_witness :
    ((mkIndentFormatter false false none true 120 false false 4 false true
        false).truncate_messages = true) ∧
    noEsc (([] : List Char) ++ List.replicate 60 'a') ∧
    (50 < (([] : List Char) ++ List.replicate 60 'a').length) ∧
    (strip_color_codes (get_colored_message
      (mkIndentFormatter false false none true 120 false false 4 false true
        false)
      ⟨List.replicate 60 'a', strL "INFO", strL "mod", strL "fn", 0,
        strL "red"⟩ [])).length = 50 := by
  refine ⟨rfl, by decide, by decide, ?_⟩
  exact ((claim_C6_truncation
    (mkIndentFormatter false false none true 120 false false 4 false true
      false)
    ⟨List.replicate 60 'a', strL "INFO", strL "mod", strL "fn", 0,
      strL "red"⟩ [] rfl (by decide)).1 (by decide)).2

/-! ## Claim C8: alignment padding -/

/-- Formatter for the C8 counterexample: colors disabled, target column
40. -/
def f8 : IndentFormatter :=
  mkIndentFormatter true false none false 40 false false 4 true false false

/-- C8 counterexample: with colors disabled and a message containing raw
escape sequences, the code measures the unstripped message (length 7), not
the visible length (2), so the padding differs from
max(0, target - visible length of the concatenation). -/
theorem claim_C8_counterexample :
    (apply_padding f8 (strL "T") (strL "INFO")
        (colorSeq (strL "31") ++ strL "hi") (strL "i")).length ≠
      f8.min_func_name_col -
        (strip_color_codes ((strL "T" ++ sepDash) ++ strL "INFO" ++ sepDash ++
          (colorSeq (strL "31") ++ strL "hi"))).length := by
  decide

/-- C8 amended: the padding length equals
target_column - visible length of timestamp + separator + level + separator
+ message, with the message's escape sequences stripped before measuring
only when colors are enabled (when colors are disabled the raw message
length is used, which coincides with the visible length for escape-free
messages); when no annotation is shown the padding is empty. -/
theorem claim_C8_padding (f : IndentFormatter)
    (asctime levelname message info : List Char)
    (hasc : noEsc asctime) (hlvl : noEsc levelname)
    (hvis : f.disable_colors = false ∨ noEsc message) :
    (info ≠ [] →
      (apply_padding f asctime levelname message info).length =
        f.min_func_name_col -
          (strip_color_codes
            ((if f.no_datetime ∨ asctime = [] then []
              else asctime ++ sepDash) ++
             levelname ++ sepDash ++ message)).length) ∧
    apply_padding f asctime levelname message [] = [] := by
  constructor
  · intro hinfo
    have hsep : noEsc sepDash := by decide
    have hP : noEsc (if f.no_datetime ∨ asctime = [] then []
        else asctime ++ sepDash) := by
      split
      · exact noEsc_nil
      · exact noEsc_append.mpr ⟨hasc, hsep⟩
    have hA : noEsc (((if f.no_datetime ∨ asctime = [] then []
        else asctime ++ sepDash) ++ levelname) ++ sepDash) :=
      noEsc_append.mpr ⟨noEsc_append.mpr ⟨hP, hlvl⟩, hsep⟩
    rw [strip_color_codes_append_of_noEsc _ _ hA]
    have hsmsg : (if ¬ f.disable_colors then strip_color_codes message
        else message).length = (strip_color_codes message).length := by
      rcases hvis with h | h
      · simp [h]
      · have hid := strip_color_codes_of_noEsc h
        split <;> simp [hid]
    simp only [apply_padding, if_pos hinfo, List.length_replicate,
      List.length_append]
    have hsd : sepDash.length = 3 := by decide
    by_cases hnd : f.no_datetime
    · simp only [hnd, if_true, if_pos (Or.inl rfl)]
      simp at hsmsg ⊢
      omega
    · by_cases hae : asctime = []
      · have : (f.no_datetime ∨ asctime = []) := Or.inr hae
        simp only [hnd, if_false, if_pos this, hae]
        simp at hsmsg ⊢
        omega
      · have hor : ¬ (f.no_datetime ∨ asctime = []) := by
          intro h
          rcases h with h | h
          · exact hnd h
          · exact hae h
        have hsmsg2 : (if f.disable_colors = false then
            strip_color_codes message else message).length =
            (strip_color_codes message).length := by
          simpa using hsmsg
        simp only [hnd, if_false, if_neg hor]
        simp only [Bool.not_eq_true] at hnd
        simp [hnd, hae, List.length_append, hsd]
        omega
  · simp [apply_padding]

/-- C8 amended witness: colors enabled, concrete escape-laden message. -/
theorem claim_C8_padding_witness :
    ((mkIndentFormatter true false none false 40 false false 4 false false
        false).disable_colors = false ∨
      noEsc (colorSeq (strL "31") ++ strL "hi")) ∧
    noEsc (strL "T") ∧ noEsc (strL "INFO") ∧ (strL "i" ≠ []) ∧
    (apply_padding (mkIndentFormatter true false none false 40 false false 4
        false false false) (strL "T") (strL "INFO")
        (colorSeq (strL "31") ++ strL "hi") (strL "i")).length =
      (mkIndentFormatter true false none false 40 false false 4 false false
        false).min_func_name_col -
        (strip_color_codes
          ((if (mkIndentFormatter true false none false 40 false false 4
              false false false).no_datetime ∨ strL "T" = [] then []
            else strL "T" ++ sepDash) ++
           strL "INFO" ++ sepDash ++
           (colorSeq (strL "31") ++ strL "hi"))).length := by
  refine ⟨Or.inl rfl, by decide, by decide, by decide, ?_⟩
  exact (claim_C8_padding _ (strL "T") (strL "INFO")
    (colorSeq (strL "31") ++ strL "hi") (strL "i")
    (by decide) (by decide) (Or.inl rfl)).1 (by decide)

/-! ## Claim C9: truncation applies to indent plus message combined -/

/-- C9: the 50-character truncation threshold applies to the indentation
prefix and the message text combined: at any positive indent width (with
truncation actually firing), strictly fewer than 47 characters of the
original message survive, and once the indent alone reaches 48 characters
the rendered message is ellipsis-terminated indentation with no message
text at all. -/
theorem claim_C9_truncation_eats_indent (f : IndentFormatter)
    (record : LogRecord) (d : Nat)
    (htr : f.truncate_messages = true)
    (hdc : f.disable_colors = true)
    (hind : 1 ≤ (get_indent f d record).length)
    (hlen : 50 < (get_indent f d record).length + record.msg.length) :
    get_colored_message f record (get_indent f d record) =
      (get_indent f d record).take 47 ++
        record.msg.take (47 - (get_indent f d record).length) ++ strL "..." ∧
    (record.msg.take (47 - (get_indent f d record).length)).length < 47 ∧
    (48 ≤ (get_indent f d record).length →
      get_colored_message f record (get_indent f d record) =
        List.replicate 47 ' ' ++ strL "...") := by
  set indent := get_indent f d record with hindent
  have hcond : (f.truncate_messages = true ∧
      (indent ++ record.msg).length > 50) := by
    refine ⟨htr, ?_⟩
    rw [List.length_append]
    omega
  have hgcm : get_colored_message f record indent =
      (indent ++ record.msg).take 47 ++ strL "..." := by
    simp only [get_colored_message]
    rw [if_pos hcond, if_pos hdc]
  have hsplit : (indent ++ record.msg).take 47 =
      indent.take 47 ++ record.msg.take (47 - indent.length) :=
    List.take_append_eq_append_take
  constructor
  · rw [hgcm, hsplit, List.append_assoc]
  constructor
  · rw [List.length_take]
    omega
  · intro h48
    have hzero : 47 - indent.length = 0 := by omega
    have hnil : record.msg.take (47 - indent.length) = [] := by
      rw [hzero]; rfl
    by_cases hdi : f.disable_indent
    · rw [hindent] at hind
      simp [get_indent, hdi] at hind
    · have hrep : indent = List.replicate
          ((d + record.lvl +
            ((if f.indent_modules ∧ record.name ≠ strL "__main__" then 1
                else 0) +
             (if f.indent_packages then record.name.count '.' else 0))) *
           f.indent_spaces) ' ' := by
        rw [hindent]
        simp [get_indent, hdi]
      have htk : indent.take 47 = List.replicate 47 ' ' := by
        rw [hrep, List.take_replicate]
        congr 1
        have : indent.length = ((d + record.lvl +
            ((if f.indent_modules ∧ record.name ≠ strL "__main__" then 1
                else 0) +
             (if f.indent_packages then record.name.count '.' else 0))) *
           f.indent_spaces) := by
          rw [hrep, List.length_replicate]
        omega
      rw [hgcm, hsplit, htk, hnil]
      simp

/-- C9 witness: indent of 52 spaces swallows the whole message. -/
theorem claim_C9_truncation_eats_indent_witness :
    ((mkIndentFormatter false false none true 120 false false 4 true false
        false).truncate_messages = true) ∧
    ((mkIndentFormatter false false none true 120 false false 4 true false
        false).disable_colors = true) ∧
    1 ≤ (get_indent (mkIndentFormatter false false none true 120 false false
        4 true false false) 13
        ⟨strL "hello", strL "INFO", strL "mod", strL "fn", 0,
          strL "reset"⟩).length ∧
    get_colored_message (mkIndentFormatter false false none true 120 false
        false 4 true false false)
      ⟨strL "hello", strL "INFO", strL "mod", strL "fn", 0, strL "reset"⟩
      (get_indent (mkIndentFormatter false false none true 120 false false 4
        true false false) 13
        ⟨strL "hello", strL "INFO", strL "mod", strL "fn", 0,
          strL "reset"⟩) =
      List.replicate 47 ' ' ++ strL "..." := by
  refine ⟨rfl, rfl, by decide, ?_⟩
  exact (claim_C9_truncation_eats_indent
    (mkIndentFormatter false false none true 120 false false 4 true false
      false)
    ⟨strL "hello", strL "INFO", strL "mod", strL "fn", 0, strL "reset"⟩
    13 rfl rfl (by decide) (by decide)).2.2 (by decide)

/-! ## Claim C7: colors disabled means no escape sequences -/

/-- `isPrefixOf` gives a decomposition with `drop`. -/
theorem isPrefixOf_drop_eq : ∀ (p s : List Char), p.isPrefixOf s = true →
    s = p ++ s.drop p.length := by
  intro p
  induction p with
  | nil => intro s _; simp
  | cons x p' ih =>
    intro s hp
    cases s with
    | nil => simp [List.isPrefixOf] at hp
    | cons y s' =>
      simp only [List.isPrefixOf, Bool.and_eq_true, beq_iff_eq] at hp
      obtain ⟨hxy, hrest⟩ := hp
      have := ih s' hrest
      simp only [List.length_cons, List.drop_succ_cons, List.cons_append]
      rw [hxy, ← this]

/-- A successful `splitOnce` decomposes the input around the separator. -/
theorem splitOnce_eq (sep : List Char) : ∀ (s a b : List Char),
    splitOnce sep s = some (a, b) → s = (a ++ sep) ++ b := by
  intro s
  induction s with
  | nil =>
    intro a b h
    simp only [splitOnce] at h
    split at h
    · next hsep =>
      injection h with h'
      injection h' with h1 h2
      subst hsep
      subst h1
      subst h2
      rfl
    · exact absurd h (by simp)
  | cons c rest ih =>
    intro a b h
    simp only [splitOnce] at h
    split at h
    · next hpre =>
      injection h with h'
      injection h' with h1 h2
      subst h1
      subst h2
      simpa using isPrefixOf_drop_eq sep (c :: rest) hpre
    · next hpre =>
      cases hrec : splitOnce sep rest with
      | none => rw [hrec] at h; exact absurd h (by simp)
      | some p =>
        obtain ⟨a', b'⟩ := p
        rw [hrec] at h
        injection h with h'
        injection h' with h1 h2
        subst h1
        subst h2
        have := ih a' b' hrec
        rw [List.cons_append, List.cons_append, ← this]

/-- A successful split of an escape-free string yields escape-free parts. -/
theorem splitOnce_noEsc {sep s a b : List Char}
    (h : splitOnce sep s = some (a, b)) (hs : noEsc s) :
    noEsc a ∧ noEsc b := by
  have := splitOnce_eq sep s a b h
  rw [this] at hs
  have h1 := noEsc_append.mp hs
  have h2 := noEsc_append.mp h1.1
  exact ⟨h2.1, h1.2⟩

/-- Indentation strings contain no escapes. -/
theorem noEsc_get_indent (f : IndentFormatter) (d : Nat)
    (record : LogRecord) : noEsc (get_indent f d record) := by
  unfold get_indent
  split
  · exact noEsc_nil
  · exact noEsc_replicate_space _

/-- With colors disabled the colored message is escape-free whenever the
indent and raw message are. -/
theorem noEsc_get_colored_message (f : IndentFormatter) (record : LogRecord)
    (indent : List Char) (hdc : f.disable_colors = true)
    (hi : noEsc indent) (hm : noEsc record.msg) :
    noEsc (get_colored_message f record indent) := by
  simp only [get_colored_message]
  rw [if_pos hdc]
  split
  · exact noEsc_append.mpr
      ⟨noEsc_take 47 (noEsc_append.mpr ⟨hi, hm⟩), by decide⟩
  · exact noEsc_append.mpr ⟨hi, hm⟩

/-- Left-justified level names add only spaces. -/
theorem noEsc_ljust8 {s : List Char} (hs : noEsc s) : noEsc (ljust8 s) :=
  noEsc_append.mpr ⟨hs, noEsc_replicate_space _⟩

/-- Padding strings contain no escapes. -/
theorem noEsc_apply_padding (f : IndentFormatter)
    (asctime levelname message info : List Char) :
    noEsc (apply_padding f asctime levelname message info) := by
  simp only [apply_padding]
  by_cases h : info ≠ []
  · rw [if_pos h]
    exact noEsc_replicate_space _
  · rw [if_neg h]
    exact noEsc_nil

/-- A formatted template is escape-free when its literals and the two
substituted values are. -/
theorem formatSegs_noEsc : ∀ (segs : List Seg) (fn md out : List Char),
    formatSegs segs fn md = Except.ok out →
    (∀ s, Seg.lit s ∈ segs → noEsc s) → noEsc fn → noEsc md →
    noEsc out := by
  intro segs
  induction segs with
  | nil =>
    intro fn md out h _ _ _
    simp only [formatSegs] at h
    injection h with h'
    rw [← h']
    exact noEsc_nil
  | cons seg rest ih =>
    intro fn md out h hlit hfn hmd
    have hlit' : ∀ s, Seg.lit s ∈ rest → noEsc s := by
      intro s hs
      exact hlit s (List.mem_cons_of_mem _ hs)
    cases seg with
    | lit s =>
      simp only [formatSegs] at h
      cases hrec : formatSegs rest fn md with
      | error e => rw [hrec] at h; exact absurd h (by simp [Except.map])
      | ok y =>
        rw [hrec] at h
        simp only [Except.map] at h
        injection h with h'
        rw [← h']
        exact noEsc_append.mpr
          ⟨hlit s (List.mem_cons_self _ _), ih fn md y hrec hlit' hfn hmd⟩
    | field n =>
      simp only [formatSegs] at h
      by_cases h1 : n = strL "funcName"
      · rw [if_pos h1] at h
        cases hrec : formatSegs rest fn md with
        | error e => rw [hrec] at h; exact absurd h (by simp [Except.map])
        | ok y =>
          rw [hrec] at h
          simp only [Except.map] at h
          injection h with h'
          rw [← h']
          exact noEsc_append.mpr ⟨hfn, ih fn md y hrec hlit' hfn hmd⟩
      · rw [if_neg h1] at h
        by_cases h2 : n = strL "moduleName"
        · rw [if_pos h2] at h
          cases hrec : formatSegs rest fn md with
          | error e => rw [hrec] at h; exact absurd h (by simp [Except.map])
          | ok y =>
            rw [hrec] at h
            simp only [Except.map] at h
            injection h with h'
            rw [← h']
            exact noEsc_append.mpr ⟨hmd, ih fn md y hrec hlit' hfn hmd⟩
        · rw [if_neg h2] at h
          exact absurd h (by simp)

/-- C7: for every record whose message (and identifier-like fields) contain
no ANSI escape sequences, rendering with colors disabled produces a line
containing no ANSI escape sequence anywhere. -/
theorem claim_C7_no_escapes (f : IndentFormatter) (record : LogRecord)
    (d : Nat) (asctime out : List Char)
    (hdc : f.disable_colors = true)
    (hmsg : noEsc record.msg) (hlvl : noEsc record.levelname)
    (hfn : noEsc record.funcName) (hname : noEsc record.name)
    (hasc : noEsc asctime)
    (hfmt : ∀ s, Seg.lit s ∈ f.func_module_format → noEsc s)
    (hout : format f record d asctime = Except.ok out) :
    noEsc out := by
  have hindent := noEsc_get_indent f d record
  have hcm := noEsc_get_colored_message f record (get_indent f d record)
    hdc hindent hmsg
  have hlj := noEsc_ljust8 hlvl
  have hsep : noEsc sepDash := by decide
  simp only [format] at hout
  split at hout
  next e hinfo =>
    exact absurd hout (by simp)
  next info hinfo =>
    have hinfo_noesc : noEsc info := by
      unfold get_func_module_info at hinfo
      by_cases hempty : f.func_module_format = []
      · rw [if_pos hempty] at hinfo
        injection hinfo with h'
        rw [← h']
        exact noEsc_nil
      · rw [if_neg hempty] at hinfo
        exact formatSegs_noEsc _ _ _ _ hinfo hfmt hfn hname
    have hsuffix : noEsc (if f.func_module_format ≠ [] then
        apply_padding f (if f.no_datetime then [] else asctime)
          (ljust8 record.levelname)
          (get_colored_message f record (get_indent f d record)) info ++
          [lbrace] ++ info ++ [rbrace]
      else []) := by
      split
      · refine noEsc_append.mpr ⟨noEsc_append.mpr ⟨noEsc_append.mpr
          ⟨noEsc_apply_padding _ _ _ _ _, ?_⟩, hinfo_noesc⟩, ?_⟩
        · exact noEsc_cons (by decide) noEsc_nil
        · exact noEsc_cons (by decide) noEsc_nil
      · exact noEsc_nil
    have hbase : noEsc (asctime ++ sepDash ++ ljust8 record.levelname ++
        sepDash ++ get_colored_message f record (get_indent f d record) ++
        (if f.func_module_format ≠ [] then
          apply_padding f (if f.no_datetime then [] else asctime)
            (ljust8 record.levelname)
            (get_colored_message f record (get_indent f d record)) info ++
            [lbrace] ++ info ++ [rbrace]
        else [])) := by
      exact noEsc_append.mpr ⟨noEsc_append.mpr ⟨noEsc_append.mpr
        ⟨noEsc_append.mpr ⟨noEsc_append.mpr ⟨hasc, hsep⟩, hlj⟩, hsep⟩,
        hcm⟩, hsuffix⟩
    set base := asctime ++ sepDash ++ ljust8 record.levelname ++ sepDash ++
      get_colored_message f record (get_indent f d record) ++
      (if f.func_module_format ≠ [] then
        apply_padding f (if f.no_datetime then [] else asctime)
          (ljust8 record.levelname)
          (get_colored_message f record (get_indent f d record)) info ++
          [lbrace] ++ info ++ [rbrace]
      else []) with hbase_def
    by_cases hnd : f.no_datetime
    · rw [if_pos hnd] at hout
      unfold pySplit2 at hout
      cases h1 : splitOnce sepDash base with
      | none =>
        rw [h1] at hout
        simp at hout
        rw [← hout]
        exact hbase
      | some p =>
        obtain ⟨a, r⟩ := p
        rw [h1] at hout
        simp only at hout
        have har := splitOnce_noEsc h1 hbase
        cases h2 : splitOnce sepDash r with
        | none =>
          rw [h2] at hout
          simp at hout
          rw [← hout]
          exact har.2
        | some q =>
          obtain ⟨b, r2⟩ := q
          rw [h2] at hout
          simp at hout
          rw [← hout]
          have hbr2 := splitOnce_noEsc h2 har.2
          exact noEsc_append.mpr ⟨hbr2.1, noEsc_append.mpr ⟨hsep, hbr2.2⟩⟩
    · rw [if_neg hnd] at hout
      rw [if_neg (by simp [hdc])] at hout
      injection hout with h'
      rw [← h']
      exact hbase

/-- C7 witness: a concrete colors-disabled render with the default
module:func annotation. -/
theorem claim_C7_no_escapes_witness :
    ((mkIndentFormatter true true none false 50 false false 4 true false
        false).disable_colors = true) ∧
    ∃ out, format (mkIndentFormatter true true none false 50 false false 4
        true false false) recPlain 1 (strL "2025-01-01 10:00:00")
      = Except.ok out ∧ noEsc out := by
  refine ⟨rfl, ⟨_, rfl, ?_⟩⟩
  have hfmt : ∀ s, Seg.lit s ∈ (mkIndentFormatter true true none false 50
      false false 4 true false false).func_module_format → noEsc s := by
    have htpl : (mkIndentFormatter true true none false 50 false false 4
        true false false).func_module_format =
        [Seg.field (strL "moduleName"), Seg.lit (strL ":"),
         Seg.field (strL "funcName")] := by decide
    intro s hs
    rw [htpl] at hs
    simp at hs
    subst hs
    decide
  exact claim_C7_no_escapes _ recPlain 1 (strL "2025-01-01 10:00:00") _
    rfl (by decide) (by decide) (by decide) (by decide) (by decide)
    hfmt rfl

/-! ## smart_logger.py -/

/-- A Python value as seen by the structured dumper.  Leaves carry their
object identity, whether they are `str` instances, and their rendered text;
composite values are references into the heap below. -/
inductive Val where
  | prim (oid : Nat) (isStr : Bool) (s : String)
  | ref (oid : Nat)
deriving DecidableEq, Repr

/-- The contents of a composite Python object: a mapping (also covering
objects with a `__dict__`, which `_log_object` treats identically) or a
list. -/
inductive HObj where
  | hdict (entries : List (String × Val))
  | hlist (items : List Val)
deriving DecidableEq, Repr

/-- `id(obj)` of a value. -/
def Val.oid : Val → Nat
  | Val.prim o _ _ => o
  | Val.ref o => o

/-- One emitted log line of the dumper, tagged with its `lvl`.  `sentinel`
is the `"<Recursion detected>"` line; `objRepr` stands for the
`str(obj)` fallback line `_log_simple_value` produces for a non-dict,
non-str composite (its exact text is irrelevant to the claims and is not
modelled character by character). -/
inductive Line where
  | text (lvl : Nat) (s : String)
  | sentinel (lvl : Nat)
  | objRepr (lvl : Nat) (oid : Nat)
deriving DecidableEq, Repr

/-- smart_logger.py `flatten_string`: `re.sub(r'\s+', ' ', s).strip()`.
`pyIsSpace` covers the ASCII characters matched by `\s`. -/
def pyIsSpace (c : Char) : Bool :=
  c = ' ' ∨ c = '\t' ∨ c = '\n' ∨ c = '\x0b' ∨ c = '\x0c' ∨ c = '\r'

/-- Worker for the `re.sub(r'\s+', ' ', s)` step: collapse every whitespace
run to one space; the flag records whether the previous character was part
of a run. -/
def subWsAux : Bool → List Char → List Char
  | _, [] => []
  | prev, c :: rest =>
    if pyIsSpace c then
      if prev then subWsAux true rest else ' ' :: subWsAux true rest
    else c :: subWsAux false rest

/-- Python `str.strip()` (after the substitution only spaces remain, but
stripping all whitespace is the faithful behaviour). -/
def pyStrip (l : List Char) : List Char :=
  ((l.dropWhile pyIsSpace).reverse.dropWhile pyIsSpace).reverse

def flatten_string (s : String) : String :=
  String.mk (pyStrip (subWsAux false s.data))

/-- The text `_log_key_value` / `_log_simple_value` render for a leaf:
flatten only actual `str` values longer than 120 characters when
`flatten_long_strings` is set. -/
def displayStr (flattenLong isStr : Bool) (s : String) : String :=
  if flattenLong ∧ isStr ∧ s.length > 120 then flatten_string s else s

/-- Which of the three mutually recursive dumper procedures is running:
`_log_object obj`, the `for key, value in dictionary.items()` loop of
`_log_object`, or `_log_list` (with the current `enumerate` index). -/
inductive SmartCall where
  | obj (v : Val)
  | entries (es : List (String × Val))
  | items (idx : Nat) (is : List Val)
deriving DecidableEq, Repr

/-- The `f"[{index}]"` prefix of `_log_list`. -/
def listItemLabel (idx : Nat) : String := "[" ++ toString idx ++ "]"

/-- smart_logger.py: `_log_object` / `_log_list` and `_log_object`'s entry
loop, as one fuel-indexed function over an explicit heap.  The `_visited`
set (a Python set of `id()`s mutated in place) is threaded through and
returned; `none` means the fuel ran out, which for every fuel value means
the Python original recurses without bound.  Faithful structure:
`_log_object` checks and marks `id(obj)` on entry before dispatching;
`_log_list` performs no visited check of its own and recurses into nested
lists directly. -/
def smartLog (heap : Nat → HObj) (exclude : List String)
    (flattenLong : Bool) :
    Nat → SmartCall → Nat → List Nat → Option (List Line × List Nat)
  | 0, _, _, _ => none
  | fuel + 1, SmartCall.obj v, lvl, visited =>
    if v.oid ∈ visited then some ([Line.sentinel lvl], visited)
    else
      let visited := v.oid :: visited
      match v with
      | Val.prim _ isStr s =>
        some ([Line.text lvl (displayStr flattenLong isStr s)], visited)
      | Val.ref oid =>
        match heap oid with
        | HObj.hdict entries =>
          smartLog heap exclude flattenLong fuel (SmartCall.entries entries)
            lvl visited
        | HObj.hlist _ => some ([Line.objRepr lvl oid], visited)
  | _ + 1, SmartCall.entries [], _, visited => some ([], visited)
  | fuel + 1, SmartCall.entries ((k, v) :: rest), lvl, visited =>
    if k ∈ exclude then
      smartLog heap exclude flattenLong fuel (SmartCall.entries rest) lvl
        visited
    else
      match v with
      | Val.prim _ isStr s =>
        match smartLog heap exclude flattenLong fuel
            (SmartCall.entries rest) lvl visited with
        | none => none
        | some (ls, vis2) =>
          some (Line.text lvl (k ++ ": " ++ displayStr flattenLong isStr s)
            :: ls, vis2)
      | Val.ref oid =>
        match heap oid with
        | HObj.hdict _ =>
          match smartLog heap exclude flattenLong fuel
              (SmartCall.obj (Val.ref oid)) (lvl + 1) visited with
          | none => none
          | some (ls1, vis1) =>
            match smartLog heap exclude flattenLong fuel
                (SmartCall.entries rest) lvl vis1 with
            | none => none
            | some (ls2, vis2) =>
              some (Line.text lvl (k ++ ":") :: (ls1 ++ ls2), vis2)
        | HObj.hlist items =>
          match smartLog heap exclude flattenLong fuel
              (SmartCall.items 0 items) (lvl + 1) visited with
          | none => none
          | some (ls1, vis1) =>
            match smartLog heap exclude flattenLong fuel
                (SmartCall.entries rest) lvl vis1 with
            | none => none
            | some (ls2, vis2) =>
              some (Line.text lvl
                (k ++ ": List of length " ++ toString items.length)
                :: (ls1 ++ ls2), vis2)
  | _ + 1, SmartCall.items _ [], _, visited => some ([], visited)
  | fuel + 1, SmartCall.items idx (item :: rest), lvl, visited =>
    match item with
    | Val.prim _ isStr s =>
      match smartLog heap exclude flattenLong fuel
          (SmartCall.items (idx + 1) rest) lvl visited with
      | none => none
      | some (ls, vis2) =>
        some (Line.text lvl
          (listItemLabel idx ++ ": " ++ displayStr flattenLong isStr s)
          :: ls, vis2)
    | Val.ref oid =>
      match heap oid with
      | HObj.hdict _ =>
        match smartLog heap exclude flattenLong fuel
            (SmartCall.obj (Val.ref oid)) (lvl + 1) visited with
        | none => none
        | some (ls1, vis1) =>
          match smartLog heap exclude flattenLong fuel
              (SmartCall.items (idx + 1) rest) lvl vis1 with
          | none => none
          | some (ls2, vis2) =>
            some (Line.text lvl (listItemLabel idx ++ ":")
              :: (ls1 ++ ls2), vis2)
      | HObj.hlist items2 =>
        match smartLog heap exclude flattenLong fuel
            (SmartCall.items 0 items2) (lvl + 1) visited with
        | none => none
        | some (ls1, vis1) =>
          match smartLog heap exclude flattenLong fuel
              (SmartCall.items (idx + 1) rest) lvl vis1 with
          | none => none
          | some (ls2, vis2) =>
            some (Line.text lvl (listItemLabel idx ++ ":")
              :: (ls1 ++ ls2), vis2)

/-- smart_logger.py: `_log_object(logger, obj, lvl, exclude,
flatten_long_strings)` with a fresh `_visited` set, as called by
`smart_indent_log`. -/
def log_object (heap : Nat → HObj) (exclude : List String)
    (flattenLong : Bool) (fuel : Nat) (v : Val) (lvl : Nat) :
    Option (List Line × List Nat) :=
  smartLog heap exclude flattenLong fuel (SmartCall.obj v) lvl []

/-- A top-level dump call terminates when some fuel suffices. -/
def dumpTerminates (heap : Nat → HObj) (v : Val) : Prop :=
  ∃ fuel res, log_object heap [] true fuel v 0 = some res

/-- Count the `"<Recursion detected>"` sentinel lines in an output. -/
def countSentinels (ls : List Line) : Nat :=
  ls.countP (fun l => match l with | Line.sentinel _ => true | _ => false)

/-! ## Claim C1: cycle protection -/

/-- Heap with a dict at 0 whose value is the self-referential list at 1
(`l = [l]; d = {"k": l}`). -/
def heapListCycle : Nat → HObj := fun n =>
  if n = 0 then HObj.hdict [("k", Val.ref 1)] else HObj.hlist [Val.ref 1]

/-- Heap with the self-referential mapping `a["self"] = a` at 0. -/
def heapSelfDict : Nat → HObj := fun _ => HObj.hdict [("self", Val.ref 0)]

theorem heapListCycle_items_diverge :
    ∀ (fuel lvl : Nat) (vis : List Nat),
      smartLog heapListCycle [] true fuel
        (SmartCall.items 0 [Val.ref 1]) lvl vis = none := by
  intro fuel
  induction fuel with
  | zero => intro lvl vis; rfl
  | succ n ih =>
    intro lvl vis
    simp only [smartLog]
    have h1 : heapListCycle 1 = HObj.hlist [Val.ref 1] := rfl
    simp only [h1, ih]

theorem heapListCycle_entries_diverge :
    ∀ (fuel lvl : Nat) (vis : List Nat),
      smartLog heapListCycle [] true fuel
        (SmartCall.entries [("k", Val.ref 1)]) lvl vis = none := by
  intro fuel
  cases fuel with
  | zero => intro lvl vis; rfl
  | succ n =>
    intro lvl vis
    simp only [smartLog]
    have h1 : heapListCycle 1 = HObj.hlist [Val.ref 1] := rfl
    have hk : ¬ ("k" ∈ ([] : List String)) := by simp
    rw [if_neg hk]
    simp only [h1, heapListCycle_items_diverge]

theorem heapListCycle_obj_diverge :
    ∀ fuel : Nat,
      smartLog heapListCycle [] true fuel
        (SmartCall.obj (Val.ref 0)) 0 [] = none := by
  intro fuel
  cases fuel with
  | zero => rfl
  | succ n =>
    simp only [smartLog]
    have h0 : heapListCycle 0 = HObj.hdict [("k", Val.ref 1)] := rfl
    have hv : ¬ ((Val.ref 0).oid ∈ ([] : List Nat)) := by simp
    rw [if_neg hv]
    simp only [h0, heapListCycle_entries_diverge]

/-- C1 counterexample: the dumper does not terminate on every
self-referential graph — a self-referential list below a mapping is
descended into without any visited check, and the walk never finishes
(for every fuel the run is still unfinished). -/
theorem claim_C1_counterexample :
    ¬ dumpTerminates heapListCycle (Val.ref 0) := by
  rintro ⟨fuel, res, h⟩
  unfold log_object at h
  rw [heapListCycle_obj_diverge fuel] at h
  exact absurd h (by simp)

/-- C1 amended: the visited check happens on entry to `_log_object` — i.e.
before a mapping or attribute-bag is expanded — emitting exactly one
sentinel line and not descending when the identity is already present, and
marking before recursing otherwise, so a self-referential mapping
`a["self"] = a` dumps exactly one sentinel line for the cyclic branch and
terminates; but `_log_list` performs no check, so a cycle made only of
sequences (reached from inside the structure) is descended without bound
and the dump does not terminate. -/
theorem claim_C1_cycle_check :
    log_object heapSelfDict [] true 5 (Val.ref 0) 0 =
      some ([Line.text 0 "self:", Line.sentinel 1], [0]) ∧
    countSentinels [Line.text 0 "self:", Line.sentinel 1] = 1 ∧
    dumpTerminates heapSelfDict (Val.ref 0) ∧
    ¬ dumpTerminates heapListCycle (Val.ref 0) := by
  refine ⟨by decide, by decide,
    ⟨5, ([Line.text 0 "self:", Line.sentinel 1], [0]), by decide⟩, ?_⟩
  rintro ⟨fuel, res, h⟩
  unfold log_object at h
  rw [heapListCycle_obj_diverge fuel] at h
  exact absurd h (by simp)

/-! ## Claim C10: the visited set only grows -/

theorem visited_sub_cons (a : Nat) (l : List Nat) : l ⊆ a :: l := by
  intro x hx
  exact List.mem_cons_of_mem _ hx

/-- Within one dump, the visited set only grows: whatever any of the three
dumper procedures returns extends the visited set it was given. -/
theorem smartLog_visited_mono (heap : Nat → HObj) (exclude : List String)
    (flattenLong : Bool) :
    ∀ (fuel : Nat) (c : SmartCall) (lvl : Nat) (vis : List Nat)
      (res : List Line × List Nat),
      smartLog heap exclude flattenLong fuel c lvl vis = some res →
      vis ⊆ res.2 := by
  intro fuel
  induction fuel with
  | zero =>
    intro c lvl vis res h
    simp [smartLog] at h
  | succ n ih =>
    intro c lvl vis res h
    cases c with
    | obj v =>
      simp only [smartLog] at h
      by_cases hv : v.oid ∈ vis
      · rw [if_pos hv] at h
        injection h with h'
        rw [← h']
        exact fun x hx => hx
      · rw [if_neg hv] at h
        cases v with
        | prim o isStr s =>
          injection h with h'
          rw [← h']
          exact visited_sub_cons _ _
        | ref oid =>
          cases hh : heap oid with
          | hdict entries2 =>
            simp only [hh] at h
            exact List.Subset.trans (visited_sub_cons _ _) (ih _ _ _ _ h)
          | hlist items2 =>
            simp only [hh] at h
            injection h with h'
            rw [← h']
            exact visited_sub_cons _ _
    | entries es =>
      cases es with
      | nil =>
        simp only [smartLog] at h
        injection h with h'
        rw [← h']
        exact fun x hx => hx
      | cons kv rest =>
        obtain ⟨k, v⟩ := kv
        simp only [smartLog] at h
        by_cases hk : k ∈ exclude
        · rw [if_pos hk] at h
          exact ih _ _ _ _ h
        · rw [if_neg hk] at h
          cases v with
          | prim o isStr s =>
            cases hrec : smartLog heap exclude flattenLong n
                (SmartCall.entries rest) lvl vis with
            | none =>
              simp only [hrec] at h
              exact Option.noConfusion h
            | some p =>
              obtain ⟨ls, vis2⟩ := p
              simp only [hrec] at h
              injection h with h'
              rw [← h']
              exact show vis ⊆ vis2 from ih _ _ _ _ hrec
          | ref oid =>
            cases hh : heap oid with
            | hdict entries2 =>
              simp only [hh] at h
              cases hrec1 : smartLog heap exclude flattenLong n
                  (SmartCall.obj (Val.ref oid)) (lvl + 1) vis with
              | none =>
                simp only [hrec1] at h
                exact Option.noConfusion h
              | some p1 =>
                obtain ⟨ls1, vis1⟩ := p1
                simp only [hrec1] at h
                cases hrec2 : smartLog heap exclude flattenLong n
                    (SmartCall.entries rest) lvl vis1 with
                | none =>
                  simp only [hrec2] at h
                  exact Option.noConfusion h
                | some p2 =>
                  obtain ⟨ls2, vis2⟩ := p2
                  simp only [hrec2] at h
                  injection h with h'
                  rw [← h']
                  exact show vis ⊆ vis2 from
                    List.Subset.trans (ih _ _ _ _ hrec1) (ih _ _ _ _ hrec2)
            | hlist items2 =>
              simp only [hh] at h
              cases hrec1 : smartLog heap exclude flattenLong n
                  (SmartCall.items 0 items2) (lvl + 1) vis with
              | none =>
                simp only [hrec1] at h
                exact Option.noConfusion h
              | some p1 =>
                obtain ⟨ls1, vis1⟩ := p1
                simp only [hrec1] at h
                cases hrec2 : smartLog heap exclude flattenLong n
                    (SmartCall.entries rest) lvl vis1 with
                | none =>
                  simp only [hrec2] at h
                  exact Option.noConfusion h
                | some p2 =>
                  obtain ⟨ls2, vis2⟩ := p2
                  simp only [hrec2] at h
                  injection h with h'
                  rw [← h']
                  exact show vis ⊆ vis2 from
                    List.Subset.trans (ih _ _ _ _ hrec1) (ih _ _ _ _ hrec2)
    | items idx is2 =>
      cases is2 with
      | nil =>
        simp only [smartLog] at h
        injection h with h'
        rw [← h']
        exact fun x hx => hx
      | cons item rest =>
        simp only [smartLog] at h
        cases item with
        | prim o isStr s =>
          cases hrec : smartLog heap exclude flattenLong n
              (SmartCall.items (idx + 1) rest) lvl vis with
          | none =>
            simp only [hrec] at h
            exact Option.noConfusion h
          | some p =>
            obtain ⟨ls, vis2⟩ := p
            simp only [hrec] at h
            injection h with h'
            rw [← h']
            exact show vis ⊆ vis2 from ih _ _ _ _ hrec
        | ref oid =>
          cases hh : heap oid with
          | hdict entries2 =>
            simp only [hh] at h
            cases hrec1 : smartLog heap exclude flattenLong n
                (SmartCall.obj (Val.ref oid)) (lvl + 1) vis with
            | none =>
              simp only [hrec1] at h
              exact Option.noConfusion h
            | some p1 =>
              obtain ⟨ls1, vis1⟩ := p1
              simp only [hrec1] at h
              cases hrec2 : smartLog heap exclude flattenLong n
                  (SmartCall.items (idx + 1) rest) lvl vis1 with
              | none =>
                simp only [hrec2] at h
                exact Option.noConfusion h
              | some p2 =>
                obtain ⟨ls2, vis2⟩ := p2
                simp only [hrec2] at h
                injection h with h'
                rw [← h']
                exact show vis ⊆ vis2 from
                  List.Subset.trans (ih _ _ _ _ hrec1) (ih _ _ _ _ hrec2)
          | hlist items2 =>
            simp only [hh] at h
            cases hrec1 : smartLog heap exclude flattenLong n
                (SmartCall.items 0 items2) (lvl + 1) vis with
            | none =>
              simp only [hrec1] at h
              exact Option.noConfusion h
            | some p1 =>
              obtain ⟨ls1, vis1⟩ := p1
              simp only [hrec1] at h
              cases hrec2 : smartLog heap exclude flattenLong n
                  (SmartCall.items (idx + 1) rest) lvl vis1 with
              | none =>
                simp only [hrec2] at h
                exact Option.noConfusion h
              | some p2 =>
                obtain ⟨ls2, vis2⟩ := p2
                simp only [hrec2] at h
                injection h with h'
                rw [← h']
                exact show vis ⊆ vis2 from
                  List.Subset.trans (ih _ _ _ _ hrec1) (ih _ _ _ _ hrec2)

/-- Heap in which the same dict object (id 1) sits at two different,
non-cyclic positions of the dict at 0. -/
def heapShared : Nat → HObj := fun n =>
  if n = 0 then HObj.hdict [("a", Val.ref 1), ("b", Val.ref 1)]
  else HObj.hdict [("x", Val.prim 5 true "v")]

/-- C10: within one top-level dump call the visited set only grows — an
identity once marked is never removed — so a mapping object's contents are
expanded at most once per dump: when the same dict object occurs in two
non-cyclic positions, the second occurrence emits the recursion sentinel
instead of its contents, even though no true cycle exists. -/
theorem claim_C10_visited_grows :
    (∀ (heap : Nat → HObj) (exclude : List String) (flattenLong : Bool)
       (fuel : Nat) (v : Val) (lvl : Nat) (vis : List Nat)
       (res : List Line × List Nat),
      smartLog heap exclude flattenLong fuel (SmartCall.obj v) lvl vis =
        some res → vis ⊆ res.2) ∧
    log_object heapShared [] true 20 (Val.ref 0) 0 =
      some ([Line.text 0 "a:", Line.text 1 "x: v", Line.text 0 "b:",
        Line.sentinel 1], [1, 0]) ∧
    countSentinels [Line.text 0 "a:", Line.text 1 "x: v", Line.text 0 "b:",
      Line.sentinel 1] = 1 := by
  refine ⟨fun heap ex fl fuel v lvl vis res h =>
    smartLog_visited_mono heap ex fl fuel _ lvl vis res h, by decide,
    by decide⟩

/-- C10 witness: the shared-dict dump grows the visited set from [] to
[1, 0] and emits the sentinel for the second occurrence. -/
theorem claim_C10_visited_grows_witness :
    smartLog heapShared [] true 20 (SmartCall.obj (Val.ref 0)) 0 [] =
      some ([Line.text 0 "a:", Line.text 1 "x: v", Line.text 0 "b:",
        Line.sentinel 1], [1, 0]) ∧
    ([] : List Nat) ⊆ [1, 0] := by
  refine ⟨by decide, ?_⟩
  exact claim_C10_visited_grows.1 heapShared [] true 20 (Val.ref 0) 0 []
    ([Line.text 0 "a:", Line.text 1 "x: v", Line.text 0 "b:",
      Line.sentinel 1], [1, 0]) (by decide)
